import Mathlib

/-!
# concaveman.cpp: the C boundary of the concave hull routine

`rust_concaveman_2d` copies a flat buffer of doubles into a vector of points, copies the
seed hull indices, calls `concaveman<T, 16>` and copies the polygon it returns into a
freshly `malloc`ed flat buffer.  `free_points` releases that buffer.

The coordinate type `T` (`typedef double T`) is kept abstract: the boundary only copies
coordinates, it never computes with them.  `size_t` is 64 bits wide.  Buffers are lists
holding the extent the pointer refers to; an access outside that extent is a `Fault`.
-/

namespace Concaveman

/-! ## Definitions embedded from `concaveman.cpp` -/

/-- Number of values of a `size_t`. -/
def SIZE_MOD : Nat := 2 ^ 64

/-- The expression `i << 1` on a `size_t`. -/
def shl1 (i : Nat) : Nat := (i * 2) % SIZE_MOD

/-- The expression `(i << 1) + 1` on a `size_t`. -/
def shl1_succ (i : Nat) : Nat := (shl1 i + 1) % SIZE_MOD

/-- Ways in which an execution leaves defined behaviour, or fails to come back. -/
inductive Fault where
  | pointsOutOfBounds (idx : Nat)
  | hullOutOfBounds (idx : Nat)
  | vectorOutOfBounds (idx : Nat)
  | noPolygon
  | nullStore (idx : Nat)
  | outputOutOfBounds (idx : Nat)
  | invalidFree (ptr : Nat)
  deriving DecidableEq, Repr

/-- What the boundary code does to the outside world, in program order. -/
inductive Event (T : Type) where
  | readPoints (idx : Nat)
  | readHull (idx : Nat)
  | call (K : Nat) (points : List (T × T)) (hull : List Int) (concavity lengthThreshold : T)
  | malloc (bytes : Nat)
  | writeOut (idx : Nat)
  deriving DecidableEq, Repr

/-- The allocator as seen by one call: whether `malloc` answers `NULL`, and what the
block it hands out contains before anything is stored in it. -/
structure Env (T : Type) where
  mallocNull : Bool
  garbage : Nat → T

/-- Outcome of `malloc(bytes)`: `none` for `NULL`, else a block of `bytes / sizeof(double)`
doubles with arbitrary content. -/
def Env.malloc {T : Type} (env : Env T) (bytes : Nat) : Option (List T) :=
  if env.mallocNull then none else some ((List.range (bytes / 8)).map env.garbage)

/-- What the caller finds after a return: `*p_concave_points_c`, `*p_num_concave_points`,
and the trace of the call. -/
structure Result (T : Type) where
  concave_points_c : Option (List T)
  num_concave_points : Nat
  trace : List (Event T)
  deriving DecidableEq

/-- The loop `for (size_t i = start; i < start + count; i++) body`. -/
def forLoop {σ : Type} (body : Nat → σ → Except Fault σ) : Nat → Nat → σ → Except Fault σ
  | 0, _, s => .ok s
  | count + 1, i, s =>
    match body i s with
    | .ok s1 => forLoop body count (i + 1) s1
    | .error e => .error e

/-- Body of the first loop: `points[i] = { points_c[i << 1], points_c[(i << 1) + 1] }`. -/
def readPoint {T : Type} (points_c : List T) (i : Nat)
    (s : List (T × T) × List (Event T)) : Except Fault (List (T × T) × List (Event T)) :=
  match points_c[shl1 i]? with
  | none => .error (.pointsOutOfBounds (shl1 i))
  | some x =>
    match points_c[shl1_succ i]? with
    | none => .error (.pointsOutOfBounds (shl1_succ i))
    | some y =>
      if i < s.1.length then
        .ok (s.1.set i (x, y), s.2 ++ [.readPoints (shl1 i), .readPoints (shl1_succ i)])
      else .error (.vectorOutOfBounds i)

/-- Body of the second loop: `hull[i] = hull_points_c[i]`. -/
def readHull {T : Type} (hull_points_c : List Int) (i : Nat)
    (s : List Int × List (Event T)) : Except Fault (List Int × List (Event T)) :=
  match hull_points_c[i]? with
  | none => .error (.hullOutOfBounds i)
  | some h =>
    if i < s.1.length then .ok (s.1.set i h, s.2 ++ [.readHull i])
    else .error (.vectorOutOfBounds i)

/-- Body of the third loop: the two stores
`concave_points_c[i << 1] = concave_points[i][0]` and
`concave_points_c[(i << 1) + 1] = concave_points[i][1]`. -/
def writePoint {T : Type} (concave_points : List (T × T)) (i : Nat)
    (s : Option (List T) × List (Event T)) : Except Fault (Option (List T) × List (Event T)) :=
  match concave_points[i]? with
  | none => .error (.vectorOutOfBounds i)
  | some v =>
    match s.1 with
    | none => .error (.nullStore (shl1 i))
    | some buf =>
      if shl1 i < buf.length then
        if shl1_succ i < buf.length then
          .ok (some ((buf.set (shl1 i) v.1).set (shl1_succ i) v.2),
            s.2 ++ [.writeOut (shl1 i), .writeOut (shl1_succ i)])
        else .error (.outputOutOfBounds (shl1_succ i))
      else .error (.outputOutOfBounds (shl1 i))

/-- The function `rust_concaveman_2d`.  The template `concaveman<T, MAX_CHILDREN>` comes
from `concaveman.h` and is a parameter here; it answers `none` when it does not return. -/
def rust_concaveman_2d {T : Type} [Zero T]
    (concaveman : Nat → List (T × T) → List Int → T → T → Option (List (T × T)))
    (env : Env T)
    (points_c : List T) (num_points : Nat)
    (hull_points_c : List Int) (num_hull_points : Nat)
    (concavity lengthThreshold : T) : Except Fault (Result T) :=
  match forLoop (readPoint points_c) num_points 0 (List.replicate num_points (0, 0), []) with
  | .error e => .error e
  | .ok (points, t1) =>
    match forLoop (readHull hull_points_c) num_hull_points 0
        (List.replicate num_hull_points 0, t1) with
    | .error e => .error e
    | .ok (hull, t2) =>
      match concaveman 16 points hull concavity lengthThreshold with
      | none => .error .noPolygon
      | some concave_points =>
        let bytes := (8 * 2 % SIZE_MOD * concave_points.length) % SIZE_MOD
        let t3 := t2 ++ [.call 16 points hull concavity lengthThreshold, .malloc bytes]
        match forLoop (writePoint concave_points) concave_points.length 0
            (env.malloc bytes, t3) with
        | .error e => .error e
        | .ok (buf, t4) =>
          .ok { concave_points_c := buf
                num_concave_points := concave_points.length
                trace := t4 }

/-- Memory as `free_points` sees it: the `double*` stored at each address (`0` is `NULL`),
the blocks `malloc` handed out that are still live, and the accesses made so far. -/
structure Memory where
  ptrAt : Nat → Nat
  live : List Nat
  loads : List Nat
  frees : List Nat

/-- The library call `free(ptr)`: nothing for `NULL`, release of a live block, and
undefined for anything else. -/
def free (ptr : Nat) (m : Memory) : Except Fault Memory :=
  if ptr = 0 then .ok { m with frees := m.frees ++ [ptr] }
  else if ptr ∈ m.live then
    .ok { m with live := m.live.filter (fun b => b != ptr), frees := m.frees ++ [ptr] }
  else .error (.invalidFree ptr)

/-- The function `free_points`. -/
def free_points (p_concave_points_c : Nat) (m : Memory) : Except Fault Memory :=
  if p_concave_points_c = 0 then .ok m
  else free (m.ptrAt p_concave_points_c) { m with loads := m.loads ++ [p_concave_points_c] }

/-! ## The refinement routine, modelled from the specification

`concaveman.h` is not among the sources.  The definitions below follow the words of
sections 3 and 4 of the specification.  Everything the routine computes with doubles is a
field of `Geometry`, left uninterpreted. -/

/-- Modelled from the spec: the double-precision primitives of the refinement routine of
`concaveman.h` (absent): the length of an edge (section 3), the maximum search distance
"edge length ÷ concavity" (4.2 step 1), the comparison `≤` of two doubles, the midpoint of
an edge (4.2 step 3), the distance of a point to a query coordinate (4.1) and to an edge
(4.3), the near-zero-length test (4.3) and the proper-crossing test of two segments (4.4);
and what a read of the points finds at an index that no input point has, left
unspecified ("unspecified/garbage output", section 7). -/
structure Geometry (T : Type) where
  beyond : Nat → T × T
  length : T × T → T × T → T
  maxDistance : T → T → T
  le : T → T → Bool
  midpoint : T × T → T × T → T × T
  distance : T × T → T × T → T
  distanceToEdge : T × T → T × T → T × T → T
  degenerate : T × T → T × T → Bool
  crosses : T × T → T × T → T × T → T × T → Bool

/-- Modelled from the spec: the state of the Boundary Processing Loop of `concaveman.h`
(absent): the Polygon State as a cyclic sequence of point identities, the remaining point
set held by the Spatial Index, the work queue of edges and the finalized edges
(sections 2 and 3). -/
structure HullState where
  polygon : List Nat
  remaining : List Nat
  queue : List (Nat × Nat)
  finalized : List (Nat × Nat)
  deriving DecidableEq, Repr

/-- Modelled from the spec: the coordinates of the point with identity `i`, its index into
the input (section 3, Point); an identity that is no index of an input point yields what
the read finds there; part of `concaveman.h` (absent). -/
def coordOf {T : Type} (G : Geometry T) (points : List (T × T)) (i : Nat) : T × T :=
  points.getD i (G.beyond i)

/-- Modelled from the spec: the edges of a cyclic sequence, each vertex paired with its
successor and the last with the first (section 3, Edge); part of `concaveman.h` (absent). -/
def edgesOf (polygon : List Nat) : List (Nat × Nat) :=
  polygon.zip (polygon.tail ++ polygon.take 1)

/-- Modelled from the spec: insertion of a point identity into a list ordered by ascending
distance to the query coordinate `q` (4.1); part of `concaveman.h` (absent). -/
def insertByDistance {T : Type} [Zero T] (G : Geometry T) (points : List (T × T)) (q : T × T)
    (p : Nat) : List Nat → List Nat
  | [] => [p]
  | x :: xs =>
    if G.le (G.distance (coordOf G points p) q) (G.distance (coordOf G points x) q) then
      p :: x :: xs
    else x :: insertByDistance G points q p xs

/-- Modelled from the spec: the k-nearest-neighbour query of the Spatial Index, "up to K
unconsumed points ordered by ascending distance to a query coordinate" (4.1); part of
`concaveman.h` (absent). -/
def nearest {T : Type} [Zero T] (G : Geometry T) (K : Nat) (points : List (T × T))
    (remaining : List Nat) (q : T × T) : List Nat :=
  (remaining.foldr (insertByDistance G points q) []).take K

/-- Modelled from the spec: whether the polygon edge `e` is the edge `(a,b)` or shares an
endpoint with it (4.4); part of `concaveman.h` (absent). -/
def sharesEndpoint (e : Nat × Nat) (a b : Nat) : Bool :=
  decide (e.1 = a ∨ e.1 = b ∨ e.2 = a ∨ e.2 = b)

/-- Modelled from the spec: the Intersection Guard, "test the two prospective new segments
(a,p) and (p,b) against every existing polygon edge except (a,b) itself and edges sharing
an endpoint with it. Any proper crossing rejects p" (4.4); part of `concaveman.h`
(absent). -/
def passesGuard {T : Type} [Zero T] (G : Geometry T) (points : List (T × T))
    (polygon : List Nat) (a b p : Nat) : Bool :=
  (edgesOf polygon).all fun e =>
    sharesEndpoint e a b
      || (!(G.crosses (coordOf G points a) (coordOf G points p) (coordOf G points e.1)
              (coordOf G points e.2))
          && !(G.crosses (coordOf G points p) (coordOf G points b) (coordOf G points e.1)
              (coordOf G points e.2)))

/-- Modelled from the spec: the four conditions of the Candidate Selector on a candidate
`p` for the edge `(a,b)`: within the maximum distance of the edge, no degenerate new edge,
not already a polygon vertex, and accepted by the Intersection Guard (4.3); part of
`concaveman.h` (absent). -/
def acceptable {T : Type} [Zero T] (G : Geometry T) (points : List (T × T))
    (polygon : List Nat) (maxD : T) (a b p : Nat) : Bool :=
  G.le (G.distanceToEdge (coordOf G points p) (coordOf G points a) (coordOf G points b)) maxD
    && !(G.degenerate (coordOf G points a) (coordOf G points p))
    && !(G.degenerate (coordOf G points p) (coordOf G points b))
    && !(polygon.contains p)
    && passesGuard G points polygon a b p

/-- Modelled from the spec: the candidates of an edge, the points the Spatial Index returns
near the midpoint of the edge within the maximum distance (4.2 step 3); part of
`concaveman.h` (absent). -/
def candidates {T : Type} [Zero T] (G : Geometry T) (K : Nat) (points : List (T × T))
    (remaining : List Nat) (maxD : T) (a b : Nat) : List Nat :=
  let mid := G.midpoint (coordOf G points a) (coordOf G points b)
  (nearest G K points remaining mid).filter
    fun p => G.le (G.distance (coordOf G points p) mid) maxD

/-- Modelled from the spec: the Candidate Selector, "selects the first candidate p
satisfying all of" the four conditions, candidates taken in distance order (4.3); part of
`concaveman.h` (absent). -/
def selectCandidate {T : Type} [Zero T] (G : Geometry T) (K : Nat) (points : List (T × T))
    (st : HullState) (maxD : T) (a b : Nat) : Option Nat :=
  (candidates G K points st.remaining maxD a b).find? (acceptable G points st.polygon maxD a b)

/-- Modelled from the spec: "structural replacement of one edge by two in the cyclic
sequence" (4.5): `p` is put between `a` and `b`, after the last vertex when `(a,b)` is the
closing edge; part of `concaveman.h` (absent). -/
def splice (a b p : Nat) : List Nat → List Nat
  | [] => []
  | [x] => [x, p]
  | x :: y :: rest =>
    if x = a ∧ y = b then x :: p :: y :: rest else x :: splice a b p (y :: rest)

/-- Modelled from the spec: a new edge is pushed onto the queue "unless already ≤
lengthThreshold, in which case finalize immediately" (4.2 step 4); part of `concaveman.h`
(absent). -/
def pushEdge {T : Type} [Zero T] (G : Geometry T) (points : List (T × T)) (lengthThreshold : T)
    (e : Nat × Nat) (st : HullState) : HullState :=
  if G.le (G.length (coordOf G points e.1) (coordOf G points e.2)) lengthThreshold then
    { st with finalized := st.finalized ++ [e] }
  else { st with queue := st.queue ++ [e] }

/-- Modelled from the spec: the five steps of the Boundary Processing Loop for a popped
edge `(a,b)` (4.2), with the mutation of 4.5 when a candidate is accepted; part of
`concaveman.h` (absent). -/
def processEdge {T : Type} [Zero T] (G : Geometry T) (K : Nat) (points : List (T × T))
    (concavity lengthThreshold : T) (a b : Nat) (st : HullState) : HullState :=
  let len := G.length (coordOf G points a) (coordOf G points b)
  let maxD := G.maxDistance len concavity
  if G.le len lengthThreshold then { st with finalized := st.finalized ++ [(a, b)] }
  else
    match selectCandidate G K points st maxD a b with
    | some p =>
      pushEdge G points lengthThreshold (p, b)
        (pushEdge G points lengthThreshold (a, p)
          { st with polygon := splice a b p st.polygon, remaining := st.remaining.erase p })
    | none => { st with finalized := st.finalized ++ [(a, b)] }

/-- Modelled from the spec: the Boundary Processing Loop, which pops edges until "the queue
is empty" (4.2); `none` when the fuel runs out first; part of `concaveman.h` (absent). -/
def refineLoop {T : Type} [Zero T] (G : Geometry T) (K : Nat) (points : List (T × T))
    (concavity lengthThreshold : T) : Nat → HullState → Option HullState
  | 0, st => if st.queue = [] then some st else none
  | fuel + 1, st =>
    match st.queue with
    | [] => some st
    | e :: rest =>
      refineLoop G K points concavity lengthThreshold fuel
        (processEdge G K points concavity lengthThreshold e.1 e.2 { st with queue := rest })

/-- Modelled from the spec: the seed hull as point identities.  The entries are taken as
they come, "not re-validated" (section 6): each is used as an index of `size_t` width,
whether or not an input point has that index; part of `concaveman.h` (absent). -/
def hullIds (hull : List Int) : List Nat :=
  hull.map fun h => (h % ((SIZE_MOD : Nat) : Int)).toNat

/-- Modelled from the spec: the state the loop starts from: the polygon is the seed hull,
the Spatial Index holds "all points not already on the seed convex hull" (4.1) and the
queue holds "every edge of the initial convex hull" (4.2); part of `concaveman.h`
(absent). -/
def initialState (n : Nat) (ids : List Nat) : HullState :=
  { polygon := ids
    remaining := (List.range n).filter (fun i => !(ids.contains i))
    queue := edgesOf ids
    finalized := [] }

/-- Modelled from the spec: the refinement routine `concaveman<T, K>` of `concaveman.h`
(absent): build the state from the inputs, run the Boundary Processing Loop, and read out
"the final cyclic sequence of point identities as the output polygon" (4.5).  The fuel
`2 * remaining + queue` is what the termination argument of 4.2 allows for. -/
def concaveman {T : Type} [Zero T] (G : Geometry T) (K : Nat) (points : List (T × T))
    (hull : List Int) (concavity lengthThreshold : T) : Option (List (T × T)) :=
  let st0 := initialState points.length (hullIds hull)
  match refineLoop G K points concavity lengthThreshold
      (2 * st0.remaining.length + st0.queue.length) st0 with
  | none => none
  | some st => some (st.polygon.map (coordOf G points))

/-! ## Vocabulary of the statements -/

/-- The coordinate pair at positions `2 * i` and `2 * i + 1` of a flat buffer. -/
def pointAt {T : Type} [Zero T] (points_c : List T) (i : Nat) : T × T :=
  (points_c.getD (2 * i) 0, points_c.getD (2 * i + 1) 0)

/-- The first `n` coordinate pairs of a flat buffer, in buffer order. -/
def decodePoints {T : Type} [Zero T] (points_c : List T) (n : Nat) : List (T × T) :=
  (List.range n).map (pointAt points_c)

/-- A polygon laid out flat: `x` then `y` of each vertex, in vertex order. -/
def flatten {T : Type} : List (T × T) → List T
  | [] => []
  | v :: vs => v.1 :: v.2 :: flatten vs

/-- Reads of `points_c` made by the first `n` rounds of the first loop. -/
def pointReads (T : Type) (n : Nat) : List (Event T) :=
  (List.range n).flatMap fun i => [Event.readPoints (2 * i), Event.readPoints (2 * i + 1)]

/-- Reads of `hull_points_c` made by the first `n` rounds of the second loop. -/
def hullReads (T : Type) (n : Nat) : List (Event T) :=
  (List.range n).map fun i => Event.readHull i

/-- Stores to the output buffer made by the first `n` rounds of the third loop. -/
def outWrites (T : Type) (n : Nat) : List (Event T) :=
  (List.range n).flatMap fun i => [Event.writeOut (2 * i), Event.writeOut (2 * i + 1)]

/-- The calls of the refinement routine recorded in a trace, in order. -/
def callsOf {T : Type} : List (Event T) → List (Event T)
  | [] => []
  | Event.call K points hull concavity lengthThreshold :: rest =>
    Event.call K points hull concavity lengthThreshold :: callsOf rest
  | _ :: rest => callsOf rest

/-- Whether an access recorded in a trace stays inside its buffer, for buffers of
`pointsLen`, `hullLen` and `outLen` entries. -/
def Event.inBounds {T : Type} (pointsLen hullLen outLen : Nat) : Event T → Prop
  | .readPoints idx => idx < pointsLen
  | .readHull idx => idx < hullLen
  | .writeOut idx => idx < outLen
  | .malloc bytes => bytes = 8 * outLen
  | .call _ _ _ _ _ => True

/-- The doubles a caller can read from the output buffer: none when the pointer is `NULL`. -/
def Result.entries {T : Type} (r : Result T) : List T :=
  r.concave_points_c.getD []

/-- What the Boundary Processing Loop keeps true of its state: identities stay below the
number `n` of points, and polygon and remaining set together never hold more than `bound`
entries. -/
def Sound (n bound : Nat) (st : HullState) : Prop :=
  (∀ i ∈ st.polygon, i < n) ∧ (∀ i ∈ st.remaining, i < n)
    ∧ st.polygon.length + st.remaining.length ≤ bound

/-- An edge that the loop leaves as it is whatever the Spatial Index returns from
`remaining`: not longer than the threshold, or with no point of `remaining` within the
maximum distance of it. -/
def Settled {T : Type} [Zero T] (G : Geometry T) (points : List (T × T))
    (concavity lengthThreshold : T) (remaining : List Nat) (e : Nat × Nat) : Prop :=
  G.le (G.length (coordOf G points e.1) (coordOf G points e.2)) lengthThreshold = true
    ∨ ∀ p ∈ remaining,
        G.le (G.distanceToEdge (coordOf G points p) (coordOf G points e.1) (coordOf G points e.2))
          (G.maxDistance (G.length (coordOf G points e.1) (coordOf G points e.2)) concavity) = false

/-- Squared distance of two integer points. -/
def sqDist (p q : Int × Int) : Int :=
  (p.1 - q.1) * (p.1 - q.1) + (p.2 - q.2) * (p.2 - q.2)

/-- Twice the signed area of the triangle `a b c`. -/
def orient (a b c : Int × Int) : Int :=
  (b.1 - a.1) * (c.2 - a.2) - (b.2 - a.2) * (c.1 - a.1)

/-- Squared distance of `p` to the segment `a b`, rounded down. -/
def sqSegDist (p a b : Int × Int) : Int :=
  let dot := (p.1 - a.1) * (b.1 - a.1) + (p.2 - a.2) * (b.2 - a.2)
  if dot ≤ 0 then sqDist p a
  else if sqDist a b ≤ dot then sqDist p b
  else orient a b p * orient a b p / sqDist a b

/-- Integer coordinates with squared lengths and distances: the concavity enters squared,
the threshold is a squared length; a read past the points finds `(-1, -1)`. -/
def gridGeometry : Geometry Int where
  beyond := fun _ => (-1, -1)
  length := sqDist
  maxDistance := fun len concavity => len / (concavity * concavity)
  le := fun x y => decide (x ≤ y)
  midpoint := fun a b => ((a.1 + b.1) / 2, (a.2 + b.2) / 2)
  distance := sqDist
  distanceToEdge := sqSegDist
  degenerate := fun a b => decide (sqDist a b = 0)
  crosses := fun a b c d =>
    decide (orient a b c * orient a b d < 0 ∧ orient c d a * orient c d b < 0)

/-! ## The loops of the boundary code -/

theorem shl1_eq (i : Nat) (h : 2 * i < 2 ^ 64) : shl1 i = 2 * i := by
  unfold shl1 SIZE_MOD
  rw [Nat.mod_eq_of_lt (by omega)]
  omega

theorem shl1_succ_eq (i : Nat) (h : 2 * i + 1 < 2 ^ 64) : shl1_succ i = 2 * i + 1 := by
  unfold shl1_succ
  rw [shl1_eq i (by omega)]
  unfold SIZE_MOD
  exact Nat.mod_eq_of_lt h

theorem forLoop_inv {σ : Type} (body : Nat → σ → Except Fault σ) (Inv : Nat → σ → Prop)
    (count : Nat) : ∀ (start : Nat) (s : σ), Inv start s →
      (∀ i s, start ≤ i → i < start + count → Inv i s →
        ∃ s1, body i s = .ok s1 ∧ Inv (i + 1) s1) →
      ∃ s1, forLoop body count start s = .ok s1 ∧ Inv (start + count) s1 := by
  induction count with
  | zero =>
    intro start s h0 _
    exact ⟨s, rfl, by simpa using h0⟩
  | succ n ih =>
    intro start s h0 hstep
    obtain ⟨s1, hb, h1⟩ := hstep start s (Nat.le_refl _) (by omega) h0
    obtain ⟨s2, hl, h2⟩ := ih (start + 1) s1 h1
      (fun i s hi hlt hinv => hstep i s (by omega) (by omega) hinv)
    refine ⟨s2, ?_, ?_⟩
    · simp only [forLoop, hb]
      exact hl
    · have : start + (n + 1) = start + 1 + n := by omega
      rw [this]
      exact h2

theorem pointReads_succ (T : Type) (n : Nat) :
    pointReads T (n + 1)
      = pointReads T n ++ [Event.readPoints (2 * n), Event.readPoints (2 * n + 1)] := by
  simp [pointReads, List.range_succ]

theorem hullReads_succ (T : Type) (n : Nat) :
    hullReads T (n + 1) = hullReads T n ++ [Event.readHull n] := by
  simp [hullReads, List.range_succ]

theorem outWrites_succ (T : Type) (n : Nat) :
    outWrites T (n + 1)
      = outWrites T n ++ [Event.writeOut (2 * n), Event.writeOut (2 * n + 1)] := by
  simp [outWrites, List.range_succ]

theorem getElem?_decodePoints {T : Type} [Zero T] (points_c : List T) (n j : Nat) :
    (decodePoints points_c n)[j]? = if j < n then some (pointAt points_c j) else none := by
  unfold decodePoints
  by_cases h : j < n
  · simp [h, List.getElem?_range]
  · simp [h]
    omega

theorem length_decodePoints {T : Type} [Zero T] (points_c : List T) (n : Nat) :
    (decodePoints points_c n).length = n := by
  simp [decodePoints]

theorem readPoints_loop {T : Type} [Zero T] (points_c : List T) (n : Nat) (t0 : List (Event T))
    (hlen : 2 * n ≤ points_c.length) (hsz : 2 * n < 2 ^ 64) :
    forLoop (readPoint points_c) n 0 (List.replicate n (0, 0), t0)
      = .ok (decodePoints points_c n, t0 ++ pointReads T n) := by
  obtain ⟨s1, hrun, hlen1, hget, htr⟩ := forLoop_inv (readPoint points_c)
    (fun i s => s.1.length = n ∧ (∀ j, j < i → s.1[j]? = some (pointAt points_c j))
      ∧ s.2 = t0 ++ pointReads T i) n 0 (List.replicate n (0, 0), t0)
    ⟨by simp, by intro j hj; omega, by simp [pointReads]⟩
    (by
      intro i s _ hi ⟨hl, hg, ht⟩
      have e0 : shl1 i = 2 * i := shl1_eq i (by omega)
      have e1 : shl1_succ i = 2 * i + 1 := shl1_succ_eq i (by omega)
      have hx : points_c[2 * i]? = some (points_c.getD (2 * i) 0) := by
        rw [List.getD_eq_getElem?_getD, List.getElem?_eq_getElem (by omega)]
        rfl
      have hy : points_c[2 * i + 1]? = some (points_c.getD (2 * i + 1) 0) := by
        rw [List.getD_eq_getElem?_getD, List.getElem?_eq_getElem (by omega)]
        rfl
      have hil : i < s.1.length := by omega
      refine ⟨_, by simp only [readPoint, e0, e1, hx, hy, hil, if_true]; rfl, ?_, ?_, ?_⟩
      · simp [hl]
      · intro j hj
        by_cases hji : j = i
        · subst hji
          simp [List.getElem?_set, hil, pointAt]
        · rw [List.getElem?_set_ne (Ne.symm hji)]
          exact hg j (by omega)
      · simp [ht, pointReads_succ])
  rw [hrun]
  have : s1.1 = decodePoints points_c n := by
    apply List.ext_getElem?
    intro j
    rw [getElem?_decodePoints]
    by_cases h : j < n
    · simp only [h, if_true]
      exact hget j (by omega)
    · simp only [h, if_false]
      exact List.getElem?_eq_none (by omega)
  obtain ⟨a, b⟩ := s1
  simp only at this htr
  simp only [Nat.zero_add] at htr
  rw [this, htr]

theorem readHull_loop (T : Type) (hull_points_c : List Int) (n : Nat) (t0 : List (Event T))
    (hlen : n ≤ hull_points_c.length) :
    forLoop (readHull hull_points_c) n 0 (List.replicate n 0, t0)
      = .ok (hull_points_c.take n, t0 ++ hullReads T n) := by
  obtain ⟨s1, hrun, hlen1, hget, htr⟩ := forLoop_inv (readHull hull_points_c)
    (fun i (s : List Int × List (Event T)) =>
      s.1.length = n ∧ (∀ j, j < i → s.1[j]? = hull_points_c[j]?)
      ∧ s.2 = t0 ++ hullReads T i) n 0 (List.replicate n 0, t0)
    ⟨by simp, by intro j hj; omega, by simp [hullReads]⟩
    (by
      intro i s _ hi ⟨hl, hg, ht⟩
      have hx : hull_points_c[i]? = some (hull_points_c.getD i 0) := by
        rw [List.getD_eq_getElem?_getD, List.getElem?_eq_getElem (by omega)]
        rfl
      have hil : i < s.1.length := by omega
      refine ⟨_, by simp only [readHull, hx, hil, if_true]; rfl, ?_, ?_, ?_⟩
      · simp [hl]
      · intro j hj
        by_cases hji : j = i
        · subst hji
          rw [List.getElem?_set_self hil, hx]
        · rw [List.getElem?_set_ne (Ne.symm hji)]
          exact hg j (by omega)
      · simp [ht, hullReads_succ])
  rw [hrun]
  have : s1.1 = hull_points_c.take n := by
    apply List.ext_getElem?
    intro j
    rw [List.getElem?_take]
    by_cases h : j < n
    · simp only [h, if_true]
      exact hget j (by omega)
    · simp only [h, if_false]
      exact List.getElem?_eq_none (by omega)
  obtain ⟨a, b⟩ := s1
  simp only at this htr
  simp only [Nat.zero_add] at htr
  rw [this, htr]

theorem length_flatten {T : Type} (poly : List (T × T)) :
    (flatten poly).length = 2 * poly.length := by
  induction poly with
  | nil => rfl
  | cons v vs ih => simp [flatten, ih]; omega

theorem getElem?_flatten_even {T : Type} (poly : List (T × T)) :
    ∀ i, (flatten poly)[2 * i]? = poly[i]?.map Prod.fst := by
  induction poly with
  | nil => intro i; simp [flatten]
  | cons v vs ih =>
    intro i
    cases i with
    | zero => simp [flatten]
    | succ k =>
      have : 2 * (k + 1) = 2 * k + 1 + 1 := by omega
      rw [this]
      simp only [flatten, List.getElem?_cons_succ]
      exact ih k

theorem getElem?_flatten_odd {T : Type} (poly : List (T × T)) :
    ∀ i, (flatten poly)[2 * i + 1]? = poly[i]?.map Prod.snd := by
  induction poly with
  | nil => intro i; simp [flatten]
  | cons v vs ih =>
    intro i
    cases i with
    | zero => simp [flatten]
    | succ k =>
      have : 2 * (k + 1) + 1 = 2 * k + 1 + 1 + 1 := by omega
      rw [this]
      simp only [flatten, List.getElem?_cons_succ]
      exact ih k

theorem writePoints_loop {T : Type} (poly : List (T × T)) (buf0 : List T) (t0 : List (Event T))
    (hbuf : buf0.length = 2 * poly.length) (hsz : 2 * poly.length < 2 ^ 64) :
    forLoop (writePoint poly) poly.length 0 (some buf0, t0)
      = .ok (some (flatten poly), t0 ++ outWrites T poly.length) := by
  obtain ⟨s1, hrun, buf, hs, hlen1, hget, htr⟩ := forLoop_inv (writePoint poly)
    (fun i s => ∃ buf, s.1 = some buf ∧ buf.length = 2 * poly.length
      ∧ (∀ j, j < 2 * i → buf[j]? = (flatten poly)[j]?)
      ∧ s.2 = t0 ++ outWrites T i) poly.length 0 (some buf0, t0)
    ⟨buf0, rfl, hbuf, by intro j hj; omega, by simp [outWrites]⟩
    (by
      intro i s _ hi ⟨buf, hs, hl, hg, ht⟩
      have e0 : shl1 i = 2 * i := shl1_eq i (by omega)
      have e1 : shl1_succ i = 2 * i + 1 := shl1_succ_eq i (by omega)
      obtain ⟨v, hv⟩ : ∃ v, poly[i]? = some v :=
        ⟨_, List.getElem?_eq_getElem (by omega)⟩
      have h0 : 2 * i < buf.length := by omega
      have h1 : 2 * i + 1 < buf.length := by omega
      refine ⟨_, by simp only [writePoint, hv, hs, e0, e1, h0, h1, if_true]; rfl,
        _, rfl, ?_, ?_, ?_⟩
      · simp [hl]
      · intro j hj
        by_cases hj1 : j = 2 * i + 1
        · subst hj1
          rw [List.getElem?_set_self (by simpa using h1), getElem?_flatten_odd, hv]
          rfl
        · rw [List.getElem?_set_ne (Ne.symm hj1)]
          by_cases hj0 : j = 2 * i
          · subst hj0
            rw [List.getElem?_set_self h0, getElem?_flatten_even, hv]
            rfl
          · rw [List.getElem?_set_ne (Ne.symm hj0)]
            exact hg j (by omega)
      · simp [ht, outWrites_succ])
  rw [hrun]
  have : buf = flatten poly := by
    apply List.ext_getElem?
    intro j
    by_cases h : j < 2 * poly.length
    · exact hget j (by omega)
    · rw [List.getElem?_eq_none (by omega), List.getElem?_eq_none]
      rw [length_flatten]
      omega
  obtain ⟨a, b⟩ := s1
  simp only at hs htr
  simp only [Nat.zero_add] at htr
  rw [hs, this, htr]

/-- The whole run of `rust_concaveman_2d` on well-formed buffers when the routine returns
`poly` and `malloc` succeeds. -/
theorem rust_concaveman_2d_run {T : Type} [Zero T]
    (concaveman : Nat → List (T × T) → List Int → T → T → Option (List (T × T)))
    (env : Env T) (points_c : List T) (num_points : Nat)
    (hull_points_c : List Int) (num_hull_points : Nat) (concavity lengthThreshold : T)
    (poly : List (T × T))
    (hP : 2 * num_points ≤ points_c.length) (hPs : 2 * num_points < 2 ^ 64)
    (hH : num_hull_points ≤ hull_points_c.length)
    (hC : concaveman 16 (decodePoints points_c num_points)
      (hull_points_c.take num_hull_points) concavity lengthThreshold = some poly)
    (hN : 16 * poly.length < 2 ^ 64) (hM : env.mallocNull = false) :
    rust_concaveman_2d concaveman env points_c num_points hull_points_c num_hull_points
        concavity lengthThreshold
      = .ok { concave_points_c := some (flatten poly)
              num_concave_points := poly.length
              trace := pointReads T num_points ++ hullReads T num_hull_points
                ++ [Event.call 16 (decodePoints points_c num_points)
                      (hull_points_c.take num_hull_points) concavity lengthThreshold,
                    Event.malloc (8 * (2 * poly.length))]
                ++ outWrites T poly.length } := by
  have hbytes : (8 * 2 % SIZE_MOD * poly.length) % SIZE_MOD = 8 * (2 * poly.length) := by
    unfold SIZE_MOD
    rw [Nat.mod_eq_of_lt (by norm_num : 8 * 2 < 2 ^ 64), Nat.mod_eq_of_lt (by omega)]
    omega
  have hmalloc : env.malloc (8 * (2 * poly.length))
      = some ((List.range (2 * poly.length)).map env.garbage) := by
    simp [Env.malloc, hM]
  simp only [rust_concaveman_2d, readPoints_loop points_c num_points [] hP hPs,
    readHull_loop T hull_points_c num_hull_points _ hH, hC, hbytes, hmalloc]
  rw [writePoints_loop poly _ _ (by simp) (by omega)]
  simp

theorem rust_concaveman_2d_noPolygon {T : Type} [Zero T]
    (concaveman : Nat → List (T × T) → List Int → T → T → Option (List (T × T)))
    (env : Env T) (points_c : List T) (num_points : Nat)
    (hull_points_c : List Int) (num_hull_points : Nat) (concavity lengthThreshold : T)
    (hP : 2 * num_points ≤ points_c.length) (hPs : 2 * num_points < 2 ^ 64)
    (hH : num_hull_points ≤ hull_points_c.length)
    (hC : concaveman 16 (decodePoints points_c num_points)
      (hull_points_c.take num_hull_points) concavity lengthThreshold = none) :
    rust_concaveman_2d concaveman env points_c num_points hull_points_c num_hull_points
        concavity lengthThreshold = .error .noPolygon := by
  simp only [rust_concaveman_2d, readPoints_loop points_c num_points [] hP hPs,
    readHull_loop T hull_points_c num_hull_points _ hH, hC]

theorem rust_concaveman_2d_null {T : Type} [Zero T]
    (concaveman : Nat → List (T × T) → List Int → T → T → Option (List (T × T)))
    (env : Env T) (points_c : List T) (num_points : Nat)
    (hull_points_c : List Int) (num_hull_points : Nat) (concavity lengthThreshold : T)
    (v : T × T) (rest : List (T × T))
    (hP : 2 * num_points ≤ points_c.length) (hPs : 2 * num_points < 2 ^ 64)
    (hH : num_hull_points ≤ hull_points_c.length)
    (hC : concaveman 16 (decodePoints points_c num_points)
      (hull_points_c.take num_hull_points) concavity lengthThreshold = some (v :: rest))
    (hM : env.mallocNull = true) :
    rust_concaveman_2d concaveman env points_c num_points hull_points_c num_hull_points
        concavity lengthThreshold = .error (.nullStore 0) := by
  simp only [rust_concaveman_2d, readPoints_loop points_c num_points [] hP hPs,
    readHull_loop T hull_points_c num_hull_points _ hH, hC]
  simp [Env.malloc, hM, forLoop, writePoint, shl1]

theorem rust_concaveman_2d_null_empty {T : Type} [Zero T]
    (concaveman : Nat → List (T × T) → List Int → T → T → Option (List (T × T)))
    (env : Env T) (points_c : List T) (num_points : Nat)
    (hull_points_c : List Int) (num_hull_points : Nat) (concavity lengthThreshold : T)
    (hP : 2 * num_points ≤ points_c.length) (hPs : 2 * num_points < 2 ^ 64)
    (hH : num_hull_points ≤ hull_points_c.length)
    (hC : concaveman 16 (decodePoints points_c num_points)
      (hull_points_c.take num_hull_points) concavity lengthThreshold = some [])
    (hM : env.mallocNull = true) :
    rust_concaveman_2d concaveman env points_c num_points hull_points_c num_hull_points
        concavity lengthThreshold
      = .ok { concave_points_c := none
              num_concave_points := 0
              trace := pointReads T num_points ++ hullReads T num_hull_points
                ++ [Event.call 16 (decodePoints points_c num_points)
                      (hull_points_c.take num_hull_points) concavity lengthThreshold,
                    Event.malloc 0] } := by
  simp only [rust_concaveman_2d, readPoints_loop points_c num_points [] hP hPs,
    readHull_loop T hull_points_c num_hull_points _ hH, hC]
  simp [Env.malloc, hM, forLoop]

theorem callsOf_append {T : Type} (xs ys : List (Event T)) :
    callsOf (xs ++ ys) = callsOf xs ++ callsOf ys := by
  induction xs with
  | nil => rfl
  | cons e es ih => cases e <;> simp [callsOf, ih]

theorem callsOf_pointReads (T : Type) (n : Nat) : callsOf (pointReads T n) = [] := by
  induction n with
  | zero => rfl
  | succ k ih => rw [pointReads_succ, callsOf_append, ih]; rfl

theorem callsOf_hullReads (T : Type) (n : Nat) : callsOf (hullReads T n) = [] := by
  induction n with
  | zero => rfl
  | succ k ih => rw [hullReads_succ, callsOf_append, ih]; rfl

theorem callsOf_outWrites (T : Type) (n : Nat) : callsOf (outWrites T n) = [] := by
  induction n with
  | zero => rfl
  | succ k ih => rw [outWrites_succ, callsOf_append, ih]; rfl

theorem mem_pointReads {T : Type} (n : Nat) (ev : Event T) (h : ev ∈ pointReads T n) :
    ∃ k, k < 2 * n ∧ ev = Event.readPoints k := by
  simp only [pointReads, List.mem_flatMap, List.mem_range] at h
  obtain ⟨i, hi, hev⟩ := h
  simp only [List.mem_cons, List.mem_singleton, List.not_mem_nil, or_false] at hev
  rcases hev with rfl | rfl
  · exact ⟨2 * i, by omega, rfl⟩
  · exact ⟨2 * i + 1, by omega, rfl⟩

theorem mem_hullReads {T : Type} (n : Nat) (ev : Event T) (h : ev ∈ hullReads T n) :
    ∃ k, k < n ∧ ev = Event.readHull k := by
  simp only [hullReads, List.mem_map, List.mem_range] at h
  obtain ⟨i, hi, hev⟩ := h
  exact ⟨i, hi, hev.symm⟩

theorem mem_outWrites {T : Type} (n : Nat) (ev : Event T) (h : ev ∈ outWrites T n) :
    ∃ k, k < 2 * n ∧ ev = Event.writeOut k := by
  simp only [outWrites, List.mem_flatMap, List.mem_range] at h
  obtain ⟨i, hi, hev⟩ := h
  simp only [List.mem_cons, List.mem_singleton, List.not_mem_nil, or_false] at hev
  rcases hev with rfl | rfl
  · exact ⟨2 * i, by omega, rfl⟩
  · exact ⟨2 * i + 1, by omega, rfl⟩

theorem getElem?_eq_some_getD {α : Type} (l : List α) (k : Nat) (d : α) (h : k < l.length) :
    l[k]? = some (l.getD k d) := by
  rw [List.getD_eq_getElem?_getD, List.getElem?_eq_getElem h]
  rfl

theorem getElem?_pointAt {T : Type} [Zero T] (points_c : List T) (i : Nat)
    (h : 2 * i + 1 < points_c.length) :
    points_c[2 * i]? = some (pointAt points_c i).1
      ∧ points_c[2 * i + 1]? = some (pointAt points_c i).2 :=
  ⟨getElem?_eq_some_getD points_c (2 * i) 0 (by omega),
    getElem?_eq_some_getD points_c (2 * i + 1) 0 h⟩

/-! ## The refinement routine as modelled -/

theorem mem_insertByDistance {T : Type} [Zero T] (G : Geometry T) (points : List (T × T))
    (q : T × T) (p x : Nat) (xs : List Nat) :
    x ∈ insertByDistance G points q p xs ↔ x = p ∨ x ∈ xs := by
  induction xs with
  | nil => simp [insertByDistance]
  | cons y ys ih =>
    unfold insertByDistance
    split
    · simp
    · simp only [List.mem_cons, ih]
      tauto

theorem mem_sorted_iff {T : Type} [Zero T] (G : Geometry T) (points : List (T × T))
    (q : T × T) (x : Nat) (xs : List Nat) :
    x ∈ xs.foldr (insertByDistance G points q) [] ↔ x ∈ xs := by
  induction xs with
  | nil => simp
  | cons y ys ih => simp [List.foldr, mem_insertByDistance, ih]

theorem mem_of_mem_candidates {T : Type} [Zero T] (G : Geometry T) (K : Nat)
    (points : List (T × T)) (remaining : List Nat) (maxD : T) (a b x : Nat)
    (h : x ∈ candidates G K points remaining maxD a b) : x ∈ remaining := by
  unfold candidates nearest at h
  exact (mem_sorted_iff G points _ x remaining).1 (List.mem_of_mem_take (List.mem_filter.1 h).1)

theorem mem_of_selectCandidate {T : Type} [Zero T] (G : Geometry T) (K : Nat)
    (points : List (T × T)) (st : HullState) (maxD : T) (a b p : Nat)
    (h : selectCandidate G K points st maxD a b = some p) : p ∈ st.remaining :=
  mem_of_mem_candidates G K points st.remaining maxD a b p (List.mem_of_find?_eq_some h)

theorem mem_splice (a b p x : Nat) (l : List Nat) (h : x ∈ splice a b p l) :
    x ∈ l ∨ x = p := by
  induction l with
  | nil => simp [splice] at h
  | cons y ys ih =>
    cases ys with
    | nil =>
      simp only [splice, List.mem_cons, List.mem_singleton, List.not_mem_nil, or_false] at h
      rcases h with h | h
      · exact Or.inl (by simp [h])
      · exact Or.inr h
    | cons z zs =>
      unfold splice at h
      split at h
      · simp only [List.mem_cons] at h
        simp only [List.mem_cons]
        tauto
      · simp only [List.mem_cons] at h
        rcases h with h | h
        · exact Or.inl (by simp [h])
        · rcases ih h with h1 | h1
          · exact Or.inl (List.mem_cons_of_mem _ h1)
          · exact Or.inr h1

theorem length_splice_le (a b p : Nat) (l : List Nat) :
    (splice a b p l).length ≤ l.length + 1 := by
  induction l with
  | nil => simp [splice]
  | cons y ys ih =>
    cases ys with
    | nil => simp [splice]
    | cons z zs =>
      unfold splice
      split
      · simp
      · simp only [List.length_cons] at ih ⊢
        omega

theorem pushEdge_fields {T : Type} [Zero T] (G : Geometry T) (points : List (T × T))
    (lengthThreshold : T) (e : Nat × Nat) (st : HullState) :
    (pushEdge G points lengthThreshold e st).polygon = st.polygon
      ∧ (pushEdge G points lengthThreshold e st).remaining = st.remaining
      ∧ (pushEdge G points lengthThreshold e st).queue.length ≤ st.queue.length + 1 := by
  unfold pushEdge
  split <;> simp

theorem processEdge_sound {T : Type} [Zero T] (G : Geometry T) (K : Nat)
    (points : List (T × T)) (concavity lengthThreshold : T) (a b : Nat) (st : HullState)
    (n bound : Nat) (h : Sound n bound st) :
    Sound n bound (processEdge G K points concavity lengthThreshold a b st)
      ∧ 2 * (processEdge G K points concavity lengthThreshold a b st).remaining.length
          + (processEdge G K points concavity lengthThreshold a b st).queue.length
        ≤ 2 * st.remaining.length + st.queue.length := by
  obtain ⟨hp, hr, hb⟩ := h
  unfold processEdge
  simp only
  split
  · exact ⟨⟨hp, hr, hb⟩, Nat.le_refl _⟩
  · split
    · rename_i p hsel
      have hmem : p ∈ st.remaining := mem_of_selectCandidate G K points st _ a b p hsel
      have hlen : (st.remaining.erase p).length = st.remaining.length - 1 :=
        List.length_erase_of_mem hmem
      have hpos : 0 < st.remaining.length := List.length_pos_of_mem hmem
      obtain ⟨q1, q2, q3⟩ := pushEdge_fields G points lengthThreshold (a, p)
        { st with polygon := splice a b p st.polygon, remaining := st.remaining.erase p }
      obtain ⟨r1, r2, r3⟩ := pushEdge_fields G points lengthThreshold (p, b)
        (pushEdge G points lengthThreshold (a, p)
          { st with polygon := splice a b p st.polygon, remaining := st.remaining.erase p })
      refine ⟨⟨?_, ?_, ?_⟩, ?_⟩
      · rw [r1, q1]
        intro i hi
        rcases mem_splice a b p i st.polygon hi with h1 | h1
        · exact hp i h1
        · exact h1 ▸ hr p hmem
      · rw [r2, q2]
        intro i hi
        exact hr i (List.mem_of_mem_erase hi)
      · rw [r1, q1, r2, q2, hlen]
        have := length_splice_le a b p st.polygon
        simp only at this ⊢
        omega
      · rw [r2, q2, hlen]
        simp only at q3 r3 ⊢
        omega
    · exact ⟨⟨hp, hr, hb⟩, Nat.le_refl _⟩

theorem refineLoop_total {T : Type} [Zero T] (G : Geometry T) (K : Nat)
    (points : List (T × T)) (concavity lengthThreshold : T) (n bound : Nat) :
    ∀ (fuel : Nat) (st : HullState), 2 * st.remaining.length + st.queue.length ≤ fuel →
      Sound n bound st →
      ∃ st1, refineLoop G K points concavity lengthThreshold fuel st = some st1
        ∧ Sound n bound st1 := by
  intro fuel
  induction fuel with
  | zero =>
    intro st hf hs
    have hq : st.queue = [] := List.length_eq_zero.1 (by omega)
    exact ⟨st, by simp [refineLoop, hq], hs⟩
  | succ k ih =>
    intro st hf hs
    unfold refineLoop
    split
    · exact ⟨st, rfl, hs⟩
    · rename_i e rest hq
      have hpop : Sound n bound { st with queue := rest } := hs
      obtain ⟨h1, h2⟩ := processEdge_sound G K points concavity lengthThreshold e.1 e.2
        { st with queue := rest } n bound hpop
      apply ih _ _ h1
      simp only at h2
      rw [hq] at hf
      simp only [List.length_cons] at hf
      omega

theorem hullIds_of_valid (n : Nat) (hull : List Int) (hn : n ≤ 2 ^ 64)
    (h : ∀ x ∈ hull, 0 ≤ x ∧ x.toNat < n) : hullIds hull = hull.map Int.toNat := by
  unfold hullIds
  apply List.map_congr_left
  intro x hx
  obtain ⟨h0, h1⟩ := h x hx
  have hlt : x < ((SIZE_MOD : Nat) : Int) := by
    unfold SIZE_MOD
    omega
  rw [Int.emod_eq_of_lt h0 hlt]

theorem length_hullIds (hull : List Int) : (hullIds hull).length = hull.length := by
  simp [hullIds]

theorem exists_bound (ids : List Nat) (n : Nat) : ∃ N, n ≤ N ∧ ∀ i ∈ ids, i < N := by
  induction ids with
  | nil => exact ⟨n, Nat.le_refl _, by simp⟩
  | cons x xs ih =>
    obtain ⟨N, hn, hN⟩ := ih
    refine ⟨N + x + 1, by omega, ?_⟩
    intro i hi
    rcases List.mem_cons.1 hi with h | h
    · omega
    · have := hN i h
      omega

theorem initialState_sound (n N : Nat) (ids : List Nat) (hn : n ≤ N) (h : ∀ i ∈ ids, i < N) :
    Sound N (ids.length + n) (initialState n ids) := by
  refine ⟨h, ?_, ?_⟩
  · intro i hi
    simp only [initialState, List.mem_filter, List.mem_range] at hi
    omega
  · simp only [initialState]
    have := List.length_filter_le (fun i => !(ids.contains i)) (List.range n)
    simp only [List.length_range] at this
    omega

theorem concaveman_total {T : Type} [Zero T] (G : Geometry T) (K : Nat)
    (points : List (T × T)) (hull : List Int) (concavity lengthThreshold : T) :
    ∃ poly, concaveman G K points hull concavity lengthThreshold = some poly
      ∧ poly.length ≤ hull.length + points.length := by
  obtain ⟨N, hn, hN⟩ := exists_bound (hullIds hull) points.length
  obtain ⟨st1, hrun, _, _, hs3⟩ := refineLoop_total G K points concavity lengthThreshold
    N ((hullIds hull).length + points.length) _ (initialState points.length (hullIds hull))
    (Nat.le_refl _) (initialState_sound _ _ _ hn hN)
  refine ⟨st1.polygon.map (coordOf G points), ?_, ?_⟩
  · unfold concaveman
    simp only
    rw [hrun]
  · rw [length_hullIds] at hs3
    simp only [List.length_map]
    omega

theorem coordOf_of_lt {T : Type} (G : Geometry T) (points : List (T × T)) (j : Nat)
    (h : j < points.length) : points[j]? = some (coordOf G points j) :=
  getElem?_eq_some_getD points j (G.beyond j) h

theorem concaveman_vertices {T : Type} [Zero T] (G : Geometry T) (K : Nat)
    (points : List (T × T)) (hull : List Int) (concavity lengthThreshold : T)
    (poly : List (T × T)) (hn : points.length ≤ 2 ^ 64)
    (hv : ∀ x ∈ hull, 0 ≤ x ∧ x.toNat < points.length)
    (h : concaveman G K points hull concavity lengthThreshold = some poly) :
    ∀ v ∈ poly, ∃ j, j < points.length ∧ points[j]? = some v := by
  have hb : ∀ i ∈ hullIds hull, i < points.length := by
    intro i hi
    rw [hullIds_of_valid _ _ hn hv] at hi
    obtain ⟨x, hx, rfl⟩ := List.mem_map.1 hi
    exact (hv x hx).2
  obtain ⟨st1, hrun, hs1, _, _⟩ := refineLoop_total G K points concavity lengthThreshold
    points.length ((hullIds hull).length + points.length) _
    (initialState points.length (hullIds hull))
    (Nat.le_refl _) (initialState_sound _ _ _ (Nat.le_refl _) hb)
  unfold concaveman at h
  simp only at h
  rw [hrun] at h
  simp only [Option.some.injEq] at h
  subst h
  intro v hv1
  obtain ⟨j, hj, rfl⟩ := List.mem_map.1 hv1
  exact ⟨j, hs1 j hj, coordOf_of_lt G points j (hs1 j hj)⟩

theorem processEdge_settled {T : Type} [Zero T] (G : Geometry T) (K : Nat)
    (points : List (T × T)) (concavity lengthThreshold : T) (a b : Nat) (st : HullState)
    (h : Settled G points concavity lengthThreshold st.remaining (a, b)) :
    processEdge G K points concavity lengthThreshold a b st
      = { st with finalized := st.finalized ++ [(a, b)] } := by
  unfold processEdge
  simp only
  split
  · rfl
  · rename_i hlen
    rcases h with h | h
    · exact absurd h hlen
    · have hnone : selectCandidate G K points st
          (G.maxDistance (G.length (coordOf G points a) (coordOf G points b)) concavity) a b
          = none := by
        unfold selectCandidate
        apply List.find?_eq_none.2
        intro x hx
        have hx1 := mem_of_mem_candidates G K points st.remaining _ a b x hx
        have := h x hx1
        simp only at this
        simp [acceptable, this]
      rw [hnone]

theorem refineLoop_settled {T : Type} [Zero T] (G : Geometry T) (K : Nat)
    (points : List (T × T)) (concavity lengthThreshold : T) (ids remaining : List Nat) :
    ∀ (fuel : Nat) (st : HullState), st.queue.length ≤ fuel → st.polygon = ids →
      st.remaining = remaining →
      (∀ e ∈ st.queue, Settled G points concavity lengthThreshold remaining e) →
      ∃ st1, refineLoop G K points concavity lengthThreshold fuel st = some st1
        ∧ st1.polygon = ids := by
  intro fuel
  induction fuel with
  | zero =>
    intro st hf hp _ _
    have hq : st.queue = [] := List.length_eq_zero.1 (by omega)
    exact ⟨st, by simp [refineLoop, hq], hp⟩
  | succ k ih =>
    intro st hf hp hr hq
    unfold refineLoop
    split
    · exact ⟨st, rfl, hp⟩
    · rename_i e rest hst
      rw [hst] at hf hq
      have he : Settled G points concavity lengthThreshold
          ({ st with queue := rest } : HullState).remaining (e.1, e.2) := by
        simp only [hr]
        exact hq e (List.mem_cons_self _ _)
      rw [processEdge_settled G K points concavity lengthThreshold e.1 e.2 _ he]
      apply ih
      · simp only [List.length_cons] at hf
        simp only
        omega
      · exact hp
      · exact hr
      · intro e1 he1
        exact hq e1 (List.mem_cons_of_mem _ he1)

theorem concaveman_settled {T : Type} [Zero T] (G : Geometry T) (K : Nat)
    (points : List (T × T)) (hull : List Int) (concavity lengthThreshold : T)
    (hn : points.length ≤ 2 ^ 64)
    (hv : ∀ x ∈ hull, 0 ≤ x ∧ x.toNat < points.length)
    (hs : ∀ e ∈ edgesOf (hull.map Int.toNat),
      Settled G points concavity lengthThreshold
        (initialState points.length (hull.map Int.toNat)).remaining e) :
    concaveman G K points hull concavity lengthThreshold
      = some (hull.map fun h => coordOf G points h.toNat) := by
  obtain ⟨st1, hrun, hpoly⟩ := refineLoop_settled G K points concavity lengthThreshold
    (hull.map Int.toNat) (initialState points.length (hull.map Int.toNat)).remaining
    (2 * (initialState points.length (hull.map Int.toNat)).remaining.length
      + (initialState points.length (hull.map Int.toNat)).queue.length)
    (initialState points.length (hull.map Int.toNat)) (by omega) rfl rfl hs
  unfold concaveman
  rw [hullIds_of_valid _ _ hn hv]
  simp only
  rw [hrun]
  simp [hpoly]

theorem writePoint_ok {T : Type} (poly : List (T × T)) (i : Nat)
    (s s1 : Option (List T) × List (Event T)) (h : writePoint poly i s = .ok s1) :
    ∃ buf v, s.1 = some buf ∧ poly[i]? = some v ∧ shl1 i < buf.length
      ∧ shl1_succ i < buf.length
      ∧ s1 = (some ((buf.set (shl1 i) v.1).set (shl1_succ i) v.2),
          s.2 ++ [Event.writeOut (shl1 i), Event.writeOut (shl1_succ i)]) := by
  unfold writePoint at h
  split at h
  · cases h
  · rename_i v hv
    split at h
    · cases h
    · rename_i buf hbuf
      split at h
      · split at h
        · rename_i h0 h1
          cases h
          exact ⟨buf, v, hbuf, hv, h0, h1, rfl⟩
        · cases h
      · cases h

theorem forLoop_writePoint_bound {T : Type} (poly : List (T × T)) (n : Nat) :
    ∀ (start : Nat) (buf : List T) (t : List (Event T)) (s1 : Option (List T) × List (Event T)),
      forLoop (writePoint poly) n start (some buf, t) = .ok s1 →
      ∀ i, start ≤ i → i < start + n → shl1_succ i < buf.length := by
  induction n with
  | zero =>
    intro start buf t s1 _ i h1 h2
    omega
  | succ k ih =>
    intro start buf t s1 h i h1 h2
    unfold forLoop at h
    split at h
    · rename_i s2 hb
      obtain ⟨buf1, v, hs, _, _, hlt, rfl⟩ := writePoint_ok poly start _ s2 hb
      simp only [Option.some.injEq] at hs
      subst hs
      by_cases hi : i = start
      · subst hi
        exact hlt
      · have := ih (start + 1) _ _ s1 h i (by omega) (by omega)
        simpa using this
    · cases h

theorem forLoop_writePoint_null {T : Type} (poly : List (T × T)) (n : Nat) (start : Nat)
    (t : List (Event T)) (s1 : Option (List T) × List (Event T))
    (h : forLoop (writePoint poly) n start (none, t) = .ok s1) : n = 0 := by
  cases n with
  | zero => rfl
  | succ k =>
    unfold forLoop at h
    split at h
    · rename_i s2 hb
      obtain ⟨buf1, v, hs, _⟩ := writePoint_ok poly start _ s2 hb
      cases hs
    · cases h

/-- A call that returns has not wrapped the byte count of the output buffer. -/
theorem rust_concaveman_2d_no_wrap {T : Type} [Zero T]
    (concaveman : Nat → List (T × T) → List Int → T → T → Option (List (T × T)))
    (env : Env T) (points_c : List T) (num_points : Nat)
    (hull_points_c : List Int) (num_hull_points : Nat) (concavity lengthThreshold : T)
    (r : Result T) (poly : List (T × T))
    (hP : 2 * num_points ≤ points_c.length) (hPs : 2 * num_points < 2 ^ 64)
    (hH : num_hull_points ≤ hull_points_c.length)
    (hC : concaveman 16 (decodePoints points_c num_points)
      (hull_points_c.take num_hull_points) concavity lengthThreshold = some poly)
    (h : rust_concaveman_2d concaveman env points_c num_points hull_points_c num_hull_points
        concavity lengthThreshold = .ok r) :
    16 * poly.length < 2 ^ 64 := by
  simp only [rust_concaveman_2d, readPoints_loop points_c num_points [] hP hPs,
    readHull_loop T hull_points_c num_hull_points _ hH, hC] at h
  split at h
  · cases h
  · rename_i buf t4 hw
    by_contra hbig
    cases hM : env.mallocNull with
    | true =>
      simp only [Env.malloc, hM, if_true] at hw
      have := forLoop_writePoint_null poly _ _ _ _ hw
      omega
    | false =>
      simp only [Env.malloc, hM] at hw
      have hb := forLoop_writePoint_bound poly _ _ _ _ _ hw (2 ^ 60 - 1) (by omega) (by omega)
      have e : shl1_succ (2 ^ 60 - 1) = 2 ^ 61 - 1 := by
        norm_num [shl1_succ, shl1, SIZE_MOD]
      rw [e] at hb
      simp only [List.length_map, List.length_range, SIZE_MOD] at hb
      omega

/-- Every return of `rust_concaveman_2d` on well-formed buffers, whatever the allocator
did: the routine returned some polygon, and count, readable entries and trace are those of
that polygon. -/
theorem rust_concaveman_2d_ok_inv {T : Type} [Zero T]
    (concaveman : Nat → List (T × T) → List Int → T → T → Option (List (T × T)))
    (env : Env T) (points_c : List T) (num_points : Nat)
    (hull_points_c : List Int) (num_hull_points : Nat) (concavity lengthThreshold : T)
    (r : Result T)
    (hP : 2 * num_points ≤ points_c.length) (hPs : 2 * num_points < 2 ^ 64)
    (hH : num_hull_points ≤ hull_points_c.length)
    (h : rust_concaveman_2d concaveman env points_c num_points hull_points_c num_hull_points
        concavity lengthThreshold = .ok r) :
    ∃ poly, concaveman 16 (decodePoints points_c num_points)
        (hull_points_c.take num_hull_points) concavity lengthThreshold = some poly
      ∧ 16 * poly.length < 2 ^ 64
      ∧ r.num_concave_points = poly.length
      ∧ r.entries = flatten poly
      ∧ r.trace = pointReads T num_points ++ hullReads T num_hull_points
          ++ [Event.call 16 (decodePoints points_c num_points)
                (hull_points_c.take num_hull_points) concavity lengthThreshold,
              Event.malloc (8 * (2 * poly.length))]
          ++ outWrites T poly.length := by
  cases hC : concaveman 16 (decodePoints points_c num_points)
      (hull_points_c.take num_hull_points) concavity lengthThreshold with
  | none =>
    rw [rust_concaveman_2d_noPolygon concaveman env points_c num_points hull_points_c
      num_hull_points concavity lengthThreshold hP hPs hH hC] at h
    cases h
  | some poly =>
    have hN := rust_concaveman_2d_no_wrap concaveman env points_c num_points hull_points_c
      num_hull_points concavity lengthThreshold r poly hP hPs hH hC h
    refine ⟨poly, rfl, hN, ?_⟩
    cases hM : env.mallocNull with
    | false =>
      rw [rust_concaveman_2d_run concaveman env points_c num_points hull_points_c
        num_hull_points concavity lengthThreshold poly hP hPs hH hC hN hM] at h
      cases h
      exact ⟨rfl, rfl, rfl⟩
    | true =>
      cases poly with
      | nil =>
        rw [rust_concaveman_2d_null_empty concaveman env points_c num_points hull_points_c
          num_hull_points concavity lengthThreshold hP hPs hH hC hM] at h
        cases h
        exact ⟨rfl, rfl, by simp [outWrites]⟩
      | cons v rest =>
        rw [rust_concaveman_2d_null concaveman env points_c num_points hull_points_c
          num_hull_points concavity lengthThreshold v rest hP hPs hH hC hM] at h
        cases h

/-! ## The boundary: `rust_concaveman_2d` and `free_points` -/

/-- C1: when the refinement routine returns a polygon of `n` vertices, every return of the
call leaves vertex count `n` and an output buffer whose `2 * n` doubles have the `x` and
the `y` of vertex `i` at positions `2 * i` and `2 * i + 1`: the buffer is the polygon laid
out flat in vertex order, nothing added, dropped or reordered; and the call does return
when `malloc` succeeds on a byte count that fits a `size_t`. -/
theorem output_buffer_is_polygon {T : Type} [Zero T]
    (concaveman : Nat → List (T × T) → List Int → T → T → Option (List (T × T)))
    (env : Env T) (points_c : List T) (num_points : Nat)
    (hull_points_c : List Int) (num_hull_points : Nat) (concavity lengthThreshold : T)
    (poly : List (T × T))
    (hP : 2 * num_points ≤ points_c.length) (hPs : 2 * num_points < 2 ^ 64)
    (hH : num_hull_points ≤ hull_points_c.length)
    (hC : concaveman 16 (decodePoints points_c num_points)
      (hull_points_c.take num_hull_points) concavity lengthThreshold = some poly) :
    (∀ r, rust_concaveman_2d concaveman env points_c num_points hull_points_c
          num_hull_points concavity lengthThreshold = .ok r →
        r.num_concave_points = poly.length
          ∧ r.entries.length = 2 * poly.length
          ∧ r.entries = flatten poly
          ∧ ∀ i v, poly[i]? = some v →
              r.entries[2 * i]? = some v.1 ∧ r.entries[2 * i + 1]? = some v.2)
      ∧ (env.mallocNull = false → 16 * poly.length < 2 ^ 64 →
          ∃ r, rust_concaveman_2d concaveman env points_c num_points hull_points_c
                num_hull_points concavity lengthThreshold = .ok r
            ∧ r.concave_points_c = some (flatten poly)) := by
  constructor
  · intro r hr
    obtain ⟨poly1, hc, _, hn, he, _⟩ := rust_concaveman_2d_ok_inv concaveman env points_c
      num_points hull_points_c num_hull_points concavity lengthThreshold r hP hPs hH hr
    have : poly1 = poly := Option.some.inj (hc.symm.trans hC)
    subst this
    refine ⟨hn, by rw [he, length_flatten], he, ?_⟩
    intro i v hv
    rw [he, getElem?_flatten_even, getElem?_flatten_odd, hv]
    exact ⟨rfl, rfl⟩
  · intro hM hN
    exact ⟨_, rust_concaveman_2d_run concaveman env points_c num_points hull_points_c
      num_hull_points concavity lengthThreshold poly hP hPs hH hC hN hM, rfl⟩

theorem output_buffer_is_polygon_witness :
    (∀ r, rust_concaveman_2d (concaveman gridGeometry) ⟨false, fun _ => 7⟩
          [0, 0, 10, 0, 10, 10, 0, 10, 5, 9] 5 [0, 1, 2, 3] 4 2 0 = .ok r →
        r.num_concave_points
            = [((0 : Int), (0 : Int)), (10, 0), (10, 10), (5, 9), (0, 10)].length
          ∧ r.entries.length
            = 2 * [((0 : Int), (0 : Int)), (10, 0), (10, 10), (5, 9), (0, 10)].length
          ∧ r.entries = flatten [(0, 0), (10, 0), (10, 10), (5, 9), (0, 10)]
          ∧ ∀ i v, [((0 : Int), (0 : Int)), (10, 0), (10, 10), (5, 9), (0, 10)][i]? = some v →
              r.entries[2 * i]? = some v.1 ∧ r.entries[2 * i + 1]? = some v.2)
      ∧ ((⟨false, fun _ => 7⟩ : Env Int).mallocNull = false →
          16 * [((0 : Int), (0 : Int)), (10, 0), (10, 10), (5, 9), (0, 10)].length < 2 ^ 64 →
          ∃ r, rust_concaveman_2d (concaveman gridGeometry) ⟨false, fun _ => 7⟩
                [0, 0, 10, 0, 10, 10, 0, 10, 5, 9] 5 [0, 1, 2, 3] 4 2 0 = .ok r
            ∧ r.concave_points_c = some (flatten [(0, 0), (10, 0), (10, 10), (5, 9), (0, 10)])) :=
  output_buffer_is_polygon (concaveman gridGeometry) ⟨false, fun _ => 7⟩
    [0, 0, 10, 0, 10, 10, 0, 10, 5, 9] 5 [0, 1, 2, 3] 4 2 0
    [(0, 0), (10, 0), (10, 10), (5, 9), (0, 10)]
    (by decide) (by decide) (by decide) (by decide)

/-- C2: on a flat buffer holding `2 * num_points` doubles the first loop decodes exactly
`num_points` points, the point with identity `i` being the pair
`(points_c[2 * i], points_c[2 * i + 1])`; whenever the call returns, these points,
unchanged, are what the refinement routine was handed; and the call does return, having
handed them over, when the routine returns and `malloc` succeeds on a byte count that fits
a `size_t`. -/
theorem points_decoded_by_index {T : Type} [Zero T]
    (concaveman : Nat → List (T × T) → List Int → T → T → Option (List (T × T)))
    (env : Env T) (points_c : List T) (num_points : Nat)
    (hull_points_c : List Int) (num_hull_points : Nat) (concavity lengthThreshold : T)
    (hP : 2 * num_points ≤ points_c.length) (hPs : 2 * num_points < 2 ^ 64)
    (hH : num_hull_points ≤ hull_points_c.length) :
    ∃ pts reads,
      forLoop (readPoint points_c) num_points 0 (List.replicate num_points (0, 0), [])
          = .ok (pts, reads)
      ∧ pts.length = num_points
      ∧ (∀ i, i < num_points → ∃ x y, points_c[2 * i]? = some x
          ∧ points_c[2 * i + 1]? = some y ∧ pts[i]? = some (x, y))
      ∧ (∀ r, rust_concaveman_2d concaveman env points_c num_points hull_points_c
            num_hull_points concavity lengthThreshold = .ok r →
          callsOf r.trace = [Event.call 16 pts (hull_points_c.take num_hull_points)
            concavity lengthThreshold])
      ∧ (env.mallocNull = false →
          ∀ poly, concaveman 16 pts (hull_points_c.take num_hull_points) concavity
            lengthThreshold = some poly →
          16 * poly.length < 2 ^ 64 →
          ∃ r, rust_concaveman_2d concaveman env points_c num_points hull_points_c
                num_hull_points concavity lengthThreshold = .ok r
            ∧ callsOf r.trace = [Event.call 16 pts (hull_points_c.take num_hull_points)
                concavity lengthThreshold]) := by
  have hcalls : ∀ r, rust_concaveman_2d concaveman env points_c num_points hull_points_c
        num_hull_points concavity lengthThreshold = .ok r →
      callsOf r.trace = [Event.call 16 (decodePoints points_c num_points)
        (hull_points_c.take num_hull_points) concavity lengthThreshold] := by
    intro r hr
    obtain ⟨poly, _, _, _, _, htr⟩ := rust_concaveman_2d_ok_inv concaveman env points_c
      num_points hull_points_c num_hull_points concavity lengthThreshold r hP hPs hH hr
    rw [htr]
    simp [callsOf_append, callsOf_pointReads, callsOf_hullReads, callsOf_outWrites, callsOf]
  refine ⟨decodePoints points_c num_points, _,
    readPoints_loop points_c num_points [] hP hPs, length_decodePoints _ _, ?_, hcalls, ?_⟩
  · intro i hi
    obtain ⟨hx, hy⟩ := getElem?_pointAt points_c i (by omega)
    refine ⟨_, _, hx, hy, ?_⟩
    rw [getElem?_decodePoints, if_pos hi]
  · intro hM poly hC hN
    have hrun := rust_concaveman_2d_run concaveman env points_c num_points hull_points_c
      num_hull_points concavity lengthThreshold poly hP hPs hH hC hN hM
    exact ⟨_, hrun, hcalls _ hrun⟩

theorem points_decoded_by_index_witness :
    ∃ pts reads,
      forLoop (readPoint [(0 : Int), 0, 10, 0, 10, 10, 0, 10, 5, 9]) 5 0
          (List.replicate 5 (0, 0), ([] : List (Event Int))) = .ok (pts, reads)
      ∧ pts.length = 5
      ∧ (∀ i, i < 5 → ∃ x y, [(0 : Int), 0, 10, 0, 10, 10, 0, 10, 5, 9][2 * i]? = some x
          ∧ [(0 : Int), 0, 10, 0, 10, 10, 0, 10, 5, 9][2 * i + 1]? = some y
          ∧ pts[i]? = some (x, y))
      ∧ (∀ r, rust_concaveman_2d (concaveman gridGeometry) ⟨false, fun _ => 7⟩
            [0, 0, 10, 0, 10, 10, 0, 10, 5, 9] 5 [0, 1, 2, 3] 4 2 0 = .ok r →
          callsOf r.trace = [Event.call 16 pts (List.take 4 [0, 1, 2, 3]) 2 0])
      ∧ ((⟨false, fun _ => 7⟩ : Env Int).mallocNull = false →
          ∀ poly, concaveman gridGeometry 16 pts (List.take 4 [0, 1, 2, 3]) 2 0 = some poly →
          16 * poly.length < 2 ^ 64 →
          ∃ r, rust_concaveman_2d (concaveman gridGeometry) ⟨false, fun _ => 7⟩
                [0, 0, 10, 0, 10, 10, 0, 10, 5, 9] 5 [0, 1, 2, 3] 4 2 0 = .ok r
            ∧ callsOf r.trace = [Event.call 16 pts (List.take 4 [0, 1, 2, 3]) 2 0]) :=
  points_decoded_by_index (concaveman gridGeometry) ⟨false, fun _ => 7⟩
    [0, 0, 10, 0, 10, 10, 0, 10, 5, 9] 5 [0, 1, 2, 3] 4 2 0
    (by decide) (by decide) (by decide)

/-- C7: `free_points` with a null address returns at once, whatever the memory, and leaves
it as it was: nothing loaded, nothing released; with a non-null address it loads the
pointer stored there and releases that block and no other, or nothing when the pointer
stored there is null. -/
theorem free_points_releases_the_block (m : Memory) (p : Nat) :
    free_points 0 m = .ok m
      ∧ (p ≠ 0 → m.ptrAt p ≠ 0 → m.ptrAt p ∈ m.live →
          ∃ m1, free_points p m = .ok m1
            ∧ (∀ b, b ∈ m1.live ↔ b ∈ m.live ∧ b ≠ m.ptrAt p)
            ∧ m1.ptrAt = m.ptrAt
            ∧ m1.loads = m.loads ++ [p]
            ∧ m1.frees = m.frees ++ [m.ptrAt p])
      ∧ (p ≠ 0 → m.ptrAt p = 0 →
          ∃ m1, free_points p m = .ok m1
            ∧ m1.live = m.live
            ∧ m1.ptrAt = m.ptrAt
            ∧ m1.loads = m.loads ++ [p]
            ∧ m1.frees = m.frees ++ [0]) := by
  refine ⟨by simp [free_points], ?_, ?_⟩
  · intro hp h0 hb
    refine ⟨{ ptrAt := m.ptrAt
              live := m.live.filter (fun b => b != m.ptrAt p)
              loads := m.loads ++ [p]
              frees := m.frees ++ [m.ptrAt p] },
      by simp [free_points, free, hp, h0, hb], ?_, rfl, rfl, rfl⟩
    intro b
    simp
  · intro hp h0
    exact ⟨{ m with loads := m.loads ++ [p], frees := m.frees ++ [0] },
      by simp [free_points, free, hp, h0], rfl, rfl, rfl, rfl⟩

theorem free_points_releases_the_block_witness :
    free_points 0 ⟨fun _ => 0, [], [], []⟩ = .ok ⟨fun _ => 0, [], [], []⟩
      ∧ free_points 0 ⟨fun a => if a = 100 then 4096 else 0, [4096, 8192], [], []⟩
        = .ok ⟨fun a => if a = 100 then 4096 else 0, [4096, 8192], [], []⟩
      ∧ (∃ m1, free_points 100 ⟨fun a => if a = 100 then 4096 else 0, [4096, 8192], [], []⟩
            = .ok m1
          ∧ (∀ b, b ∈ m1.live ↔ b ∈ [4096, 8192] ∧ b ≠ 4096)
          ∧ m1.ptrAt = (fun a => if a = 100 then 4096 else 0)
          ∧ m1.loads = [] ++ [100]
          ∧ m1.frees = [] ++ [4096])
      ∧ ∃ m1, free_points 200 ⟨fun a => if a = 100 then 4096 else 0, [4096, 8192], [], []⟩
            = .ok m1
          ∧ m1.live = [4096, 8192]
          ∧ m1.ptrAt = (fun a => if a = 100 then 4096 else 0)
          ∧ m1.loads = [] ++ [200]
          ∧ m1.frees = [] ++ [0] :=
  ⟨(free_points_releases_the_block ⟨fun _ => 0, [], [], []⟩ 0).1,
    (free_points_releases_the_block
      ⟨fun a => if a = 100 then 4096 else 0, [4096, 8192], [], []⟩ 100).1,
    (free_points_releases_the_block
      ⟨fun a => if a = 100 then 4096 else 0, [4096, 8192], [], []⟩ 100).2.1
      (by decide) (by decide) (by decide),
    (free_points_releases_the_block
      ⟨fun a => if a = 100 then 4096 else 0, [4096, 8192], [], []⟩ 200).2.2
      (by decide) (by decide)⟩

/-- C8: with `malloc` answering `NULL` and a polygon of five vertices the call does not
abort: it goes on to the first store `concave_points_c[0 << 1] = ...` through the null
pointer. -/
theorem failed_malloc_reaches_null_store :
    rust_concaveman_2d (concaveman gridGeometry) ⟨true, fun _ => 7⟩
        [0, 0, 10, 0, 10, 10, 0, 10, 5, 9] 5 [0, 1, 2, 3] 4 2 0
      = .error (.nullStore 0) := by
  rfl

/-- C9: nothing is validated and nothing is reported: for every concavity,
lengthThreshold and hull index list, a call that returns has made exactly one call of the
refinement routine, with constant 16, the decoded points, the hull indices
`hull_points_c[0..num_hull_points)` in order and the caller's concavity and
lengthThreshold, and hands back the polygon of that call; and it does return whenever the
routine does and `malloc` succeeds on a byte count that fits a `size_t`. -/
theorem one_unvalidated_call {T : Type} [Zero T]
    (concaveman : Nat → List (T × T) → List Int → T → T → Option (List (T × T)))
    (env : Env T) (points_c : List T) (num_points : Nat)
    (hull_points_c : List Int) (num_hull_points : Nat) (concavity lengthThreshold : T)
    (hP : 2 * num_points ≤ points_c.length) (hPs : 2 * num_points < 2 ^ 64)
    (hH : num_hull_points ≤ hull_points_c.length) :
    (∀ r, rust_concaveman_2d concaveman env points_c num_points hull_points_c
          num_hull_points concavity lengthThreshold = .ok r →
        ∃ poly, concaveman 16 (decodePoints points_c num_points)
            (hull_points_c.take num_hull_points) concavity lengthThreshold = some poly
          ∧ callsOf r.trace = [Event.call 16 (decodePoints points_c num_points)
              (hull_points_c.take num_hull_points) concavity lengthThreshold]
          ∧ r.num_concave_points = poly.length
          ∧ r.entries = flatten poly)
      ∧ (env.mallocNull = false →
          ∀ poly, concaveman 16 (decodePoints points_c num_points)
            (hull_points_c.take num_hull_points) concavity lengthThreshold = some poly →
          16 * poly.length < 2 ^ 64 →
          ∃ r, rust_concaveman_2d concaveman env points_c num_points hull_points_c
            num_hull_points concavity lengthThreshold = .ok r) := by
  constructor
  · intro r hr
    obtain ⟨poly, hc, _, hn, he, htr⟩ := rust_concaveman_2d_ok_inv concaveman env points_c
      num_points hull_points_c num_hull_points concavity lengthThreshold r hP hPs hH hr
    refine ⟨poly, hc, ?_, hn, he⟩
    rw [htr]
    simp [callsOf_append, callsOf_pointReads, callsOf_hullReads, callsOf_outWrites, callsOf]
  · intro hM poly hC hN
    exact ⟨_, rust_concaveman_2d_run concaveman env points_c num_points hull_points_c
      num_hull_points concavity lengthThreshold poly hP hPs hH hC hN hM⟩

theorem one_unvalidated_call_witness :
    (∀ r, rust_concaveman_2d (concaveman gridGeometry) ⟨false, fun _ => 7⟩
          [0, 0, 10, 0, 10, 10, 0, 10, 5, 9] 5 [0, 2, 1, 3] 4 (-3) (-1) = .ok r →
        ∃ poly, concaveman gridGeometry 16
            (decodePoints [0, 0, 10, 0, 10, 10, 0, 10, 5, 9] 5)
            (List.take 4 [0, 2, 1, 3]) (-3) (-1) = some poly
          ∧ callsOf r.trace = [Event.call 16
              (decodePoints [0, 0, 10, 0, 10, 10, 0, 10, 5, 9] 5)
              (List.take 4 [0, 2, 1, 3]) (-3) (-1)]
          ∧ r.num_concave_points = poly.length
          ∧ r.entries = flatten poly)
      ∧ ((⟨false, fun _ => 7⟩ : Env Int).mallocNull = false →
          ∀ poly, concaveman gridGeometry 16
            (decodePoints [0, 0, 10, 0, 10, 10, 0, 10, 5, 9] 5)
            (List.take 4 [0, 2, 1, 3]) (-3) (-1) = some poly →
          16 * poly.length < 2 ^ 64 →
          ∃ r, rust_concaveman_2d (concaveman gridGeometry) ⟨false, fun _ => 7⟩
            [0, 0, 10, 0, 10, 10, 0, 10, 5, 9] 5 [0, 2, 1, 3] 4 (-3) (-1) = .ok r) :=
  one_unvalidated_call (concaveman gridGeometry) ⟨false, fun _ => 7⟩
    [0, 0, 10, 0, 10, 10, 0, 10, 5, 9] 5 [0, 2, 1, 3] 4 (-3) (-1)
    (by decide) (by decide) (by decide)

/-- C10: on buffers of `2 * num_points` and `num_hull_points` entries, with
`2 * num_points < 2 ^ 64` and `16 * n < 2 ^ 64` for the `n` vertices returned, every read
of `points_c` is at an index below `2 * num_points`, every read of `hull_points_c` below
`num_hull_points`, every store to the output buffer below `2 * n`, the buffer having been
allocated with exactly `2 * n` doubles, and `i << 1` and `(i << 1) + 1` are `2 * i` and
`2 * i + 1` for every index in use. -/
theorem accesses_in_bounds {T : Type} [Zero T]
    (concaveman : Nat → List (T × T) → List Int → T → T → Option (List (T × T)))
    (env : Env T) (points_c : List T) (num_points : Nat)
    (hull_points_c : List Int) (num_hull_points : Nat) (concavity lengthThreshold : T)
    (poly : List (T × T))
    (hP : points_c.length = 2 * num_points) (hPs : 2 * num_points < 2 ^ 64)
    (hH : hull_points_c.length = num_hull_points)
    (hC : concaveman 16 (decodePoints points_c num_points)
      (hull_points_c.take num_hull_points) concavity lengthThreshold = some poly)
    (hN : 16 * poly.length < 2 ^ 64) (hM : env.mallocNull = false) :
    ∃ r blk, rust_concaveman_2d concaveman env points_c num_points hull_points_c
          num_hull_points concavity lengthThreshold = .ok r
      ∧ (∀ ev ∈ r.trace,
          Event.inBounds points_c.length hull_points_c.length (2 * poly.length) ev)
      ∧ Event.malloc (8 * (2 * poly.length)) ∈ r.trace
      ∧ env.malloc (8 * (2 * poly.length)) = some blk ∧ blk.length = 2 * poly.length
      ∧ (∀ i, i < num_points → shl1 i = 2 * i ∧ shl1_succ i = 2 * i + 1)
      ∧ (∀ i, i < poly.length → shl1 i = 2 * i ∧ shl1_succ i = 2 * i + 1) := by
  refine ⟨_, (List.range (2 * poly.length)).map env.garbage,
    rust_concaveman_2d_run concaveman env points_c num_points
    hull_points_c num_hull_points concavity lengthThreshold poly (by omega) hPs (by omega)
    hC hN hM, ?_, by simp, by simp [Env.malloc, hM], by simp, ?_, ?_⟩
  · intro ev hev
    simp only [List.mem_append, List.mem_cons, List.mem_singleton, List.not_mem_nil,
      or_false] at hev
    rcases hev with ((h | h) | h | h) | h
    · obtain ⟨k, hk, rfl⟩ := mem_pointReads num_points ev h
      simp only [Event.inBounds]
      omega
    · obtain ⟨k, hk, rfl⟩ := mem_hullReads num_hull_points ev h
      simp only [Event.inBounds]
      omega
    · subst h
      simp only [Event.inBounds]
    · subst h
      simp only [Event.inBounds]
    · obtain ⟨k, hk, rfl⟩ := mem_outWrites poly.length ev h
      simp only [Event.inBounds]
      omega
  · intro i hi
    exact ⟨shl1_eq i (by omega), shl1_succ_eq i (by omega)⟩
  · intro i hi
    exact ⟨shl1_eq i (by omega), shl1_succ_eq i (by omega)⟩

theorem accesses_in_bounds_witness :
    ∃ r blk, rust_concaveman_2d (concaveman gridGeometry) ⟨false, fun _ => 7⟩
          [0, 0, 10, 0, 10, 10, 0, 10, 5, 9] 5 [0, 1, 2, 3] 4 2 0 = .ok r
      ∧ (∀ ev ∈ r.trace,
          Event.inBounds [(0 : Int), 0, 10, 0, 10, 10, 0, 10, 5, 9].length
            [(0 : Int), 1, 2, 3].length
            (2 * [((0 : Int), (0 : Int)), (10, 0), (10, 10), (5, 9), (0, 10)].length) ev)
      ∧ Event.malloc
          (8 * (2 * [((0 : Int), (0 : Int)), (10, 0), (10, 10), (5, 9), (0, 10)].length))
          ∈ r.trace
      ∧ (⟨false, fun _ => 7⟩ : Env Int).malloc
          (8 * (2 * [((0 : Int), (0 : Int)), (10, 0), (10, 10), (5, 9), (0, 10)].length))
          = some blk
      ∧ blk.length = 2 * [((0 : Int), (0 : Int)), (10, 0), (10, 10), (5, 9), (0, 10)].length
      ∧ (∀ i, i < 5 → shl1 i = 2 * i ∧ shl1_succ i = 2 * i + 1)
      ∧ (∀ i, i < [((0 : Int), (0 : Int)), (10, 0), (10, 10), (5, 9), (0, 10)].length →
          shl1 i = 2 * i ∧ shl1_succ i = 2 * i + 1) :=
  accesses_in_bounds (concaveman gridGeometry) ⟨false, fun _ => 7⟩
    [0, 0, 10, 0, 10, 10, 0, 10, 5, 9] 5 [0, 1, 2, 3] 4 2 0
    [(0, 0), (10, 0), (10, 10), (5, 9), (0, 10)]
    (by decide) (by decide) (by decide) (by decide) (by decide) rfl

/-! ## The boundary with the refinement routine as modelled -/

theorem coordOf_decodePoints {T : Type} [Zero T] (G : Geometry T) (points_c : List T)
    (n j : Nat) (h : j < n) :
    coordOf G (decodePoints points_c n) j = pointAt points_c j := by
  unfold coordOf
  rw [List.getD_eq_getElem?_getD, getElem?_decodePoints, if_pos h]
  rfl

theorem mem_of_mem_edgesOf (ids : List Nat) (e : Nat × Nat) (h : e ∈ edgesOf ids) :
    e.1 ∈ ids ∧ e.2 ∈ ids := by
  unfold edgesOf at h
  obtain ⟨h1, h2⟩ := List.of_mem_zip (show (e.1, e.2) ∈ _ from h)
  refine ⟨h1, ?_⟩
  rcases List.mem_append.1 h2 with h3 | h3
  · exact List.mem_of_mem_tail h3
  · exact List.mem_of_mem_take h3

/-- C3, as stated, fails: the hull is not validated, and with the hull entry 7 on four
input points the call returns five vertices, the last of which is what the routine read
past the points, `(-1, -1)` here, the coordinate pair of no input point. -/
theorem stray_hull_entry_gives_foreign_vertex :
    ∃ r, rust_concaveman_2d (concaveman gridGeometry) ⟨false, fun _ => 7⟩
          [1, 1, 10, 1, 10, 10, 1, 10] 4 [0, 1, 2, 7] 4 2 0 = .ok r
      ∧ ¬ ∀ i, i < r.num_concave_points →
          ∃ j x y, j < 4 ∧ [(1 : Int), 1, 10, 1, 10, 10, 1, 10][2 * j]? = some x
            ∧ [(1 : Int), 1, 10, 1, 10, 10, 1, 10][2 * j + 1]? = some y
            ∧ r.entries[2 * i]? = some x ∧ r.entries[2 * i + 1]? = some y := by
  have hrun := rust_concaveman_2d_run (concaveman gridGeometry) ⟨false, fun _ => 7⟩
    [1, 1, 10, 1, 10, 10, 1, 10] 4 [0, 1, 2, 7] 4 2 0
    [(1, 1), (10, 1), (10, 10), (1, 10), (-1, -1)]
    (by decide) (by decide) (by decide) (by decide) (by decide) rfl
  refine ⟨_, hrun, ?_⟩
  intro h
  obtain ⟨j, x, y, hj, hx, _, hex, _⟩ := h 4 (by decide)
  have e : (flatten [((1 : Int), (1 : Int)), (10, 1), (10, 10), (1, 10), (-1, -1)])[2 * 4]?
      = some (-1) := by decide
  have hx1 : x = -1 := by
    have := hex
    simp only [Result.entries, Option.getD_some] at this
    rw [e] at this
    exact (Option.some.inj this).symm
  subst hx1
  interval_cases j <;> simp at hx

/-- C3, amended: with the refinement routine as the specification describes it and hull
entries that are indices of input points, every vertex of the output, the pair at
positions `2 * i` and `2 * i + 1` for `i` below the returned count, is the coordinate pair
`(points_c[2 * j], points_c[2 * j + 1])` of some input point `j < num_points`; and the
call returns when `malloc` succeeds on a byte count that fits a `size_t`. -/
theorem output_vertices_are_input_points {T : Type} [Zero T] (G : Geometry T)
    (env : Env T) (points_c : List T) (num_points : Nat)
    (hull_points_c : List Int) (num_hull_points : Nat) (concavity lengthThreshold : T)
    (hP : 2 * num_points ≤ points_c.length) (hPs : 2 * num_points < 2 ^ 64)
    (hH : num_hull_points ≤ hull_points_c.length)
    (hV : ∀ h ∈ hull_points_c.take num_hull_points, 0 ≤ h ∧ h < num_points) :
    (∀ r, rust_concaveman_2d (concaveman G) env points_c num_points hull_points_c
          num_hull_points concavity lengthThreshold = .ok r →
        ∀ i, i < r.num_concave_points →
          ∃ j x y, j < num_points ∧ points_c[2 * j]? = some x
            ∧ points_c[2 * j + 1]? = some y
            ∧ r.entries[2 * i]? = some x ∧ r.entries[2 * i + 1]? = some y)
      ∧ (env.mallocNull = false → 16 * (num_hull_points + num_points) < 2 ^ 64 →
          ∃ r, rust_concaveman_2d (concaveman G) env points_c num_points hull_points_c
            num_hull_points concavity lengthThreshold = .ok r) := by
  have hV1 : ∀ x ∈ hull_points_c.take num_hull_points,
      0 ≤ x ∧ x.toNat < (decodePoints points_c num_points).length := by
    intro x hx
    rw [length_decodePoints]
    have := hV x hx
    omega
  constructor
  · intro r hr i hi
    obtain ⟨poly, hc, _, hn, he, _⟩ := rust_concaveman_2d_ok_inv (concaveman G) env points_c
      num_points hull_points_c num_hull_points concavity lengthThreshold r hP hPs hH hr
    rw [hn] at hi
    obtain ⟨v, hv⟩ : ∃ v, poly[i]? = some v := ⟨_, List.getElem?_eq_getElem hi⟩
    have hmem : v ∈ poly := List.mem_iff_getElem?.2 ⟨i, hv⟩
    obtain ⟨j, hj, hpj⟩ := concaveman_vertices G 16 _ _ concavity lengthThreshold poly
      (by rw [length_decodePoints]; omega) hV1 hc v hmem
    rw [length_decodePoints] at hj
    rw [getElem?_decodePoints, if_pos hj] at hpj
    have hvj : v = pointAt points_c j := (Option.some.inj hpj).symm
    obtain ⟨hx, hy⟩ := getElem?_pointAt points_c j (by omega)
    refine ⟨j, v.1, v.2, hj, by rw [hvj]; exact hx, by rw [hvj]; exact hy, ?_, ?_⟩
    · rw [he, getElem?_flatten_even, hv]
      rfl
    · rw [he, getElem?_flatten_odd, hv]
      rfl
  · intro hM hS
    have hlenT : (hull_points_c.take num_hull_points).length = num_hull_points := by
      simp only [List.length_take]
      omega
    obtain ⟨poly, hc, hlen⟩ := concaveman_total G 16 (decodePoints points_c num_points)
      (hull_points_c.take num_hull_points) concavity lengthThreshold
    rw [hlenT, length_decodePoints] at hlen
    exact ⟨_, rust_concaveman_2d_run (concaveman G) env points_c num_points hull_points_c
      num_hull_points concavity lengthThreshold poly hP hPs hH hc (by omega) hM⟩

theorem output_vertices_are_input_points_witness :
    (∀ r, rust_concaveman_2d (concaveman gridGeometry) ⟨false, fun _ => 7⟩
          [0, 0, 10, 0, 10, 10, 0, 10, 5, 9] 5 [0, 1, 2, 3] 4 2 0 = .ok r →
        ∀ i, i < r.num_concave_points →
          ∃ j x y, j < 5 ∧ [(0 : Int), 0, 10, 0, 10, 10, 0, 10, 5, 9][2 * j]? = some x
            ∧ [(0 : Int), 0, 10, 0, 10, 10, 0, 10, 5, 9][2 * j + 1]? = some y
            ∧ r.entries[2 * i]? = some x ∧ r.entries[2 * i + 1]? = some y)
      ∧ ((⟨false, fun _ => 7⟩ : Env Int).mallocNull = false →
          16 * (4 + 5) < 2 ^ 64 →
          ∃ r, rust_concaveman_2d (concaveman gridGeometry) ⟨false, fun _ => 7⟩
            [0, 0, 10, 0, 10, 10, 0, 10, 5, 9] 5 [0, 1, 2, 3] 4 2 0 = .ok r) :=
  output_vertices_are_input_points gridGeometry ⟨false, fun _ => 7⟩
    [0, 0, 10, 0, 10, 10, 0, 10, 5, 9] 5 [0, 1, 2, 3] 4 2 0
    (by decide) (by decide) (by decide) (by decide)

/-- C5: with the refinement routine as the specification describes it, when
lengthThreshold is at least the length of every edge of the seed hull, or no point off the
hull lies within edge length ÷ concavity of any hull edge, the call returns the hull
unchanged: the vertex count is `num_hull_points` and vertex `i` of the output is the input
point with index `hull_points_c[i]`. -/
theorem settled_hull_is_returned_unchanged {T : Type} [Zero T] (G : Geometry T)
    (env : Env T) (points_c : List T) (num_points : Nat)
    (hull_points_c : List Int) (num_hull_points : Nat) (concavity lengthThreshold : T)
    (hP : 2 * num_points ≤ points_c.length) (hPs : 2 * num_points < 2 ^ 64)
    (hH : num_hull_points ≤ hull_points_c.length)
    (hN : 16 * num_hull_points < 2 ^ 64)
    (hV : ∀ h ∈ hull_points_c.take num_hull_points, 0 ≤ h ∧ h < num_points)
    (hM : env.mallocNull = false)
    (hE : (∀ e ∈ edgesOf ((hull_points_c.take num_hull_points).map Int.toNat),
          G.le (G.length (pointAt points_c e.1) (pointAt points_c e.2)) lengthThreshold = true)
      ∨ (∀ e ∈ edgesOf ((hull_points_c.take num_hull_points).map Int.toNat),
          ∀ p, p < num_points → p ∉ (hull_points_c.take num_hull_points).map Int.toNat →
            G.le (G.distanceToEdge (pointAt points_c p) (pointAt points_c e.1)
                (pointAt points_c e.2))
              (G.maxDistance (G.length (pointAt points_c e.1) (pointAt points_c e.2))
                concavity) = false)) :
    ∃ r buf, rust_concaveman_2d (concaveman G) env points_c num_points hull_points_c
          num_hull_points concavity lengthThreshold = .ok r
      ∧ r.num_concave_points = num_hull_points
      ∧ r.concave_points_c = some buf
      ∧ buf.length = 2 * num_hull_points
      ∧ ∀ i, i < num_hull_points →
          ∃ h x y, hull_points_c[i]? = some h
            ∧ points_c[2 * h.toNat]? = some x ∧ points_c[2 * h.toNat + 1]? = some y
            ∧ buf[2 * i]? = some x ∧ buf[2 * i + 1]? = some y := by
  have hlenT : (hull_points_c.take num_hull_points).length = num_hull_points := by
    simp only [List.length_take]
    omega
  have hV1 : ∀ x ∈ hull_points_c.take num_hull_points,
      0 ≤ x ∧ x.toNat < (decodePoints points_c num_points).length := by
    intro x hx
    rw [length_decodePoints]
    have := hV x hx
    omega
  have hids : ∀ j ∈ (hull_points_c.take num_hull_points).map Int.toNat, j < num_points := by
    intro j hj
    obtain ⟨x, hx, rfl⟩ := List.mem_map.1 hj
    have := hV x hx
    omega
  have hset : ∀ e ∈ edgesOf ((hull_points_c.take num_hull_points).map Int.toNat),
      Settled G (decodePoints points_c num_points) concavity lengthThreshold
        (initialState (decodePoints points_c num_points).length
          ((hull_points_c.take num_hull_points).map Int.toNat)).remaining e := by
    intro e he
    obtain ⟨h1, h2⟩ := mem_of_mem_edgesOf _ e he
    unfold Settled
    rw [coordOf_decodePoints G points_c num_points e.1 (hids _ h1),
      coordOf_decodePoints G points_c num_points e.2 (hids _ h2)]
    rcases hE with hE | hE
    · exact Or.inl (hE e he)
    · right
      intro p hp
      simp only [initialState, length_decodePoints, List.mem_filter, List.mem_range] at hp
      rw [coordOf_decodePoints G points_c num_points p hp.1]
      exact hE e he p hp.1 (by simpa using hp.2)
  have hc := concaveman_settled G 16 (decodePoints points_c num_points)
    (hull_points_c.take num_hull_points) concavity lengthThreshold
    (by rw [length_decodePoints]; omega) hV1 hset
  have hlenP : ((hull_points_c.take num_hull_points).map
      fun h => coordOf G (decodePoints points_c num_points) h.toNat).length
      = num_hull_points := by
    rw [List.length_map, hlenT]
  refine ⟨_, _, rust_concaveman_2d_run (concaveman G) env points_c num_points hull_points_c
    num_hull_points concavity lengthThreshold _ hP hPs hH hc
    (by rw [hlenP]; exact hN) hM, hlenP, rfl, by rw [length_flatten, hlenP], ?_⟩
  intro i hi
  have hh : hull_points_c[i]? = some (hull_points_c.getD i 0) :=
    getElem?_eq_some_getD hull_points_c i 0 (by omega)
  have hmemT : hull_points_c.getD i 0 ∈ hull_points_c.take num_hull_points := by
    apply List.mem_iff_getElem?.2
    exact ⟨i, by rw [List.getElem?_take, if_pos hi, hh]⟩
  have hj : (hull_points_c.getD i 0).toNat < num_points := by
    have := hV _ hmemT
    omega
  obtain ⟨hx, hy⟩ := getElem?_pointAt points_c (hull_points_c.getD i 0).toNat (by omega)
  have hpoly : ((hull_points_c.take num_hull_points).map
      fun h => coordOf G (decodePoints points_c num_points) h.toNat)[i]?
      = some (pointAt points_c (hull_points_c.getD i 0).toNat) := by
    rw [List.getElem?_map, List.getElem?_take, if_pos hi, hh]
    simp only [Option.map_some']
    rw [coordOf_decodePoints G points_c num_points _ hj]
  refine ⟨_, _, _, hh, hx, hy, ?_, ?_⟩
  · rw [getElem?_flatten_even, hpoly]
    rfl
  · rw [getElem?_flatten_odd, hpoly]
    rfl

theorem settled_hull_is_returned_unchanged_witness :
    ∃ r buf, rust_concaveman_2d (concaveman gridGeometry) ⟨false, fun _ => 7⟩
          [0, 0, 10, 0, 10, 10, 0, 10, 5, 9] 5 [0, 1, 2, 3] 4 2 100 = .ok r
      ∧ r.num_concave_points = 4
      ∧ r.concave_points_c = some buf
      ∧ buf.length = 2 * 4
      ∧ ∀ i, i < 4 →
          ∃ h x y, [(0 : Int), 1, 2, 3][i]? = some h
            ∧ [(0 : Int), 0, 10, 0, 10, 10, 0, 10, 5, 9][2 * h.toNat]? = some x
            ∧ [(0 : Int), 0, 10, 0, 10, 10, 0, 10, 5, 9][2 * h.toNat + 1]? = some y
            ∧ buf[2 * i]? = some x ∧ buf[2 * i + 1]? = some y :=
  settled_hull_is_returned_unchanged gridGeometry ⟨false, fun _ => 7⟩
    [0, 0, 10, 0, 10, 10, 0, 10, 5, 9] 5 [0, 1, 2, 3] 4 2 100
    (by decide) (by decide) (by decide) (by decide) (by decide) rfl (Or.inl (by decide))

end Concaveman
